import Mathlib

set_option maxHeartbeats 1000000

/-!
Shallow embedding of the Git2Txt repository: the ingestion pipeline of
src/services/github.ts (URL parsing, eligibility filtering, clone-and-walk
listing, caching, error translation) and the selection/assembly helpers of
the page component (toggleFileSelection, combineFiles).

External effects (URL parsing by the host runtime, the git clone, the
filesystem) are modelled by oracle inputs: a World record says how each
external operation would respond, and the embedded functions compute the
value the TypeScript code would produce against those responses.
-/

/-- Characters matched by the JavaScript regular-expression whitespace class,
the set used both by the minify replace and by String.prototype.trim. -/
def isJsWhitespace (c : Char) : Bool :=
  c = ' ' || c = '\t' || c = '\n' || c = '\r' ||
  c = '\u000B' || c = '\u000C' ||
  c = '\u00A0' || c = '\u1680' ||
  ('\u2000' ≤ c && c ≤ '\u200A') ||
  c = '\u2028' || c = '\u2029' || c = '\u202F' || c = '\u205F' ||
  c = '\u3000' || c = '\uFEFF'

mutual
/-- Whitespace-run collapsing: every maximal run of whitespace characters
becomes one space character.  This is the replace step of the minify option
in combineFiles; collapseWS scans outside a whitespace run. -/
def collapseWS : List Char → List Char
  | [] => []
  | c :: rest =>
    if isJsWhitespace c then ' ' :: collapseAfterWS rest
    else c :: collapseWS rest
/-- The second state of the collapsing scan: inside a whitespace run whose
single replacement space has already been emitted. -/
def collapseAfterWS : List Char → List Char
  | [] => []
  | c :: rest =>
    if isJsWhitespace c then collapseAfterWS rest
    else c :: collapseWS rest
end

/-- Removal of trailing whitespace characters from a character list. -/
def trimEnd : List Char → List Char
  | [] => []
  | c :: rest =>
    match trimEnd rest with
    | [] => if isJsWhitespace c then [] else [c]
    | r => c :: r

/-- Removal of leading and trailing whitespace characters. -/
def jsTrimList (l : List Char) : List Char :=
  trimEnd (l.dropWhile isJsWhitespace)

/-- Model of String.prototype.trim. -/
def jsTrim (s : String) : String := String.mk (jsTrimList s.data)

/-- Model of the whitespace-collapsing replace call used by the minify
option of combineFiles. -/
def jsCollapse (s : String) : String := String.mk (collapseWS s.data)

/-- Model of String.prototype.toLowerCase, restricted to the ASCII range
(the only range exercised by extension comparison). -/
def toLowerStr (s : String) : String := String.mk (s.data.map Char.toLower)

/-- Splits a character list at slash characters; auxiliary accumulator form. -/
def splitPathAux : List Char → List Char → List String
  | [], acc => [String.mk acc.reverse]
  | c :: rest, acc =>
    if c = '/' then String.mk acc.reverse :: splitPathAux rest []
    else splitPathAux rest (c :: acc)

/-- The slash-separated segments of a path string. -/
def splitPath (s : String) : List String := splitPathAux s.data []

/-- Scanner state of the node path.extname algorithm. -/
structure ExtScan where
  startDot : Int
  startPart : Int
  endIdx : Int
  matchedSlash : Bool
  preDotState : Int
deriving Repr, DecidableEq

/-- The right-to-left scanning loop of node path.extname (posix variant):
the first argument of the recursion is one past the index under scrutiny. -/
def extnameGo (cs : List Char) : Nat → ExtScan → ExtScan
  | 0, st => st
  | i + 1, st =>
    let c := cs.getD i ' '
    if c = '/' then
      if st.matchedSlash then extnameGo cs i st
      else { st with startPart := (i : Int) + 1 }
    else
      let st1 :=
        if st.endIdx == -1 then { st with matchedSlash := false, endIdx := (i : Int) + 1 }
        else st
      let st2 :=
        if c = '.' then
          if st1.startDot == -1 then { st1 with startDot := (i : Int) }
          else if st1.preDotState != 1 then { st1 with preDotState := 1 }
          else st1
        else if st1.startDot != -1 then { st1 with preDotState := -1 }
        else st1
      extnameGo cs i st2

/-- Model of node path.extname (posix): the final extension of the last path
segment, dot included; empty when the segment has no dot, when its only dot
is the leading character, or when the segment is the double dot. -/
def extname (p : String) : String :=
  let cs := p.data
  let st := extnameGo cs cs.length ⟨-1, 0, -1, true, 0⟩
  if st.startDot == -1 || st.endIdx == -1 || st.preDotState == 0 ||
     (st.preDotState == 1 && st.startDot == st.endIdx - 1 && st.startDot == st.startPart + 1)
  then ""
  else String.mk ((cs.drop st.startDot.toNat).take (st.endIdx - st.startDot).toNat)

/-- The IGNORED_EXTENSIONS set of src/services/github.ts. -/
def IGNORED_EXTENSIONS : List String :=
  [".jpg", ".jpeg", ".png", ".gif", ".ico", ".pdf",
   ".doc", ".docx", ".ppt", ".pptx", ".xls", ".xlsx",
   ".zip", ".tar", ".gz", ".rar", ".7z",
   ".exe", ".dll", ".so", ".dylib"]

/-- The MAX_FILE_SIZE ceiling of src/services/github.ts (1MB). -/
def MAX_FILE_SIZE : Nat := 1024 * 1024

/-- Model of shouldProcessFile: eligibility of a path and byte size. -/
def shouldProcessFile (filepath : String) (size : Nat) : Bool :=
  let ext := toLowerStr (extname filepath)
  if IGNORED_EXTENSIONS.contains ext then false
  else if size > MAX_FILE_SIZE then false
  else true

/-- The GitHubFile record of src/services/github.ts. -/
structure GitHubFile where
  path : String
  type : String
  content : String
  sha : String
  size : Nat
deriving Repr, DecidableEq

mutual
/-- A filesystem entry of the cloned scratch directory, together with the
oracle outcomes of the filesystem calls the walk performs on it: statOk is
whether fs.stat succeeds on the file, readable is whether fs.readFile
succeeds on it, listable is whether fs.readdir succeeds on the directory. -/
inductive FSEntry where
  | file (name : String) (size : Nat) (statOk readable : Bool) (content : String)
  | dir (name : String) (listable : Bool) (entries : FSDir)
deriving Repr
/-- The listing of one directory, as a cons list of entries. -/
inductive FSDir where
  | nil
  | cons (e : FSEntry) (rest : FSDir)
deriving Repr
end

/-- Builds a directory listing from a plain list of entries. -/
def FSDir.ofList : List FSEntry → FSDir
  | [] => FSDir.nil
  | e :: r => FSDir.cons e (FSDir.ofList r)

/-- The relative path built by listFiles for a directory entry: the JS
conditional prefix-question-mark template. -/
def relPath (pfx name : String) : String :=
  if pfx = "" then name else pfx ++ "/" ++ name

/-- Model of listFiles: the recursive walk of a directory's entries.  A
directory entry named .git is skipped; a subdirectory whose readdir fails
contributes nothing (the recursive call catches its own error); a stat
failure aborts the remainder of the current directory level (the catch in
that invocation returns the files accumulated so far); an unreadable file is
recorded with empty content by readFileFromRepo's catch. -/
def listFiles : FSDir → String → List GitHubFile
  | FSDir.nil, _ => []
  | FSDir.cons (FSEntry.dir name listable sub) rest, pfx =>
    (if name = ".git" then []
     else if listable then listFiles sub (relPath pfx name) else []) ++ listFiles rest pfx
  | FSDir.cons (FSEntry.file name size statOk readable content) rest, pfx =>
    if statOk then
      (if shouldProcessFile (relPath pfx name) size then
        [{ path := relPath pfx name, type := "file",
           content := if readable then content else "", sha := "", size := size }]
       else []) ++ listFiles rest pfx
    else []

/-- Modelled from the spec: the complete (possibly filtered) file list of a
tree — the walk outcome when no filesystem call fails, used to compare the
code's result against the complete-list wording of the spec. -/
def allEligibleFiles : FSDir → String → List GitHubFile
  | FSDir.nil, _ => []
  | FSDir.cons (FSEntry.dir name _ sub) rest, pfx =>
    (if name = ".git" then [] else allEligibleFiles sub (relPath pfx name)) ++
      allEligibleFiles rest pfx
  | FSDir.cons (FSEntry.file name size _ readable content) rest, pfx =>
    (if shouldProcessFile (relPath pfx name) size then
      [{ path := relPath pfx name, type := "file",
         content := if readable then content else "", sha := "", size := size }]
     else []) ++ allEligibleFiles rest pfx

/-- Whether every filesystem call of the walk succeeds in this tree. -/
def treeClean : FSDir → Bool
  | FSDir.nil => true
  | FSDir.cons (FSEntry.dir _ listable sub) rest =>
    listable && (treeClean sub && treeClean rest)
  | FSDir.cons (FSEntry.file _ _ statOk _ _) rest => statOk && treeClean rest

/-- Whether every entry name in the tree is free of slash characters, as
names produced by fs.readdir always are. -/
def namesOk : FSDir → Bool
  | FSDir.nil => true
  | FSDir.cons (FSEntry.file name _ _ _ _) rest =>
    !(name.data.contains '/') && namesOk rest
  | FSDir.cons (FSEntry.dir name _ sub) rest =>
    !(name.data.contains '/') && (namesOk sub && namesOk rest)

/-- Whether no regular file in the tree is named .git, as in any tree git
itself produces. -/
def noGitFile : FSDir → Bool
  | FSDir.nil => true
  | FSDir.cons (FSEntry.file name _ _ _ _) rest => (name != ".git") && noGitFile rest
  | FSDir.cons (FSEntry.dir _ _ sub) rest => noGitFile sub && noGitFile rest

/-- The tree with every directory named .git removed, at every depth. -/
def pruneGit : FSDir → FSDir
  | FSDir.nil => FSDir.nil
  | FSDir.cons (FSEntry.dir name listable sub) rest =>
    if name = ".git" then pruneGit rest
    else FSDir.cons (FSEntry.dir name listable (pruneGit sub)) (pruneGit rest)
  | FSDir.cons e rest => FSDir.cons e (pruneGit rest)

/-- The observable outcome of the host runtime's URL constructor on the
input string: hostname and pathname, absent when parsing threw. -/
structure URLParts where
  hostname : String
  pathname : String
deriving Repr, DecidableEq

/-- Model of extractRepoPath, taking the URL-constructor outcome as input:
null on parse failure, wrong host, or fewer than two non-empty path
segments; otherwise the first two segments joined by a slash. -/
def extractRepoPath (parseResult : Option URLParts) : Option String :=
  match parseResult with
  | none => none
  | some url =>
    if url.hostname != "github.com" then none
    else
      let pathParts := (splitPath url.pathname).filter (fun s => s != "")
      if pathParts.length < 2 then none
      else some (pathParts.getD 0 "" ++ "/" ++ pathParts.getD 1 "")

/-- One repoCache entry: capture time and captured files. -/
structure CacheEntry where
  timestamp : Nat
  files : List GitHubFile
deriving Repr, DecidableEq

/-- The repoCache map, modelled as an association list whose most recent
set is frontmost. -/
abbrev Cache := List (String × CacheEntry)

/-- The CACHE_DURATION constant: five minutes in milliseconds. -/
def CACHE_DURATION : Nat := 5 * 60 * 1000

/-- Model of repoCache.get. -/
def cacheGet (cache : Cache) (url : String) : Option CacheEntry :=
  (cache.find? (fun e => e.1 == url)).map (fun e => e.2)

/-- Oracle describing how the external world answers one getRepoFiles call:
the URL-constructor outcome, the clock, whether fs.mkdir succeeds, the
message fs.mkdir would throw, whether the fs.rm cleanup calls succeed, and
the clone outcome (error message, or the tree the clone writes). -/
structure World where
  parseResult : Option URLParts
  now : Nat
  mkdirOk : Bool
  mkdirErrMsg : String
  rmOk : Bool
  cloneResult : Except String FSDir

/-- Externally visible filesystem and git events of one call, in order:
rmTemp records an fs.rm attempt on the scratch directory together with its
outcome (its failure is swallowed by the catch handler either way). -/
inductive FsEv where
  | rmTemp (ok : Bool)
  | mkdirTemp
  | cloneOp
  | walkOp
deriving Repr, DecidableEq, BEq

/-- The full outcome of one getRepoFiles call: returned value or thrown
message, the cache after the call, and the event trace. -/
structure IngestResult where
  outcome : Except String (List GitHubFile)
  cache : Cache
  trace : List FsEv
deriving Repr

/-- The try/catch block of getRepoFiles after the cache miss: initial rm,
mkdir, clone, walk, cache set, final rm; any throw of mkdir or clone is
caught, the scratch directory removed again, and a single wrapped error
rethrown. -/
def getRepoFilesClone (repoUrl : String) (w : World) (cache : Cache) : IngestResult :=
  if w.mkdirOk then
    match w.cloneResult with
    | Except.ok tree =>
      let files := listFiles tree ""
      { outcome := Except.ok files,
        cache := (repoUrl, { timestamp := w.now, files := files }) :: cache,
        trace := [FsEv.rmTemp w.rmOk, FsEv.mkdirTemp, FsEv.cloneOp, FsEv.walkOp,
                  FsEv.rmTemp w.rmOk] }
    | Except.error msg =>
      { outcome := Except.error ("Failed to clone repository: " ++ msg),
        cache := cache,
        trace := [FsEv.rmTemp w.rmOk, FsEv.mkdirTemp, FsEv.cloneOp, FsEv.rmTemp w.rmOk] }
  else
    { outcome := Except.error ("Failed to clone repository: " ++ w.mkdirErrMsg),
      cache := cache,
      trace := [FsEv.rmTemp w.rmOk, FsEv.mkdirTemp, FsEv.rmTemp w.rmOk] }

/-- Model of getRepoFiles: invalid-URL check, cache check, then the
clone-and-walk block. -/
def getRepoFiles (repoUrl : String) (w : World) (cache : Cache) : IngestResult :=
  match extractRepoPath w.parseResult with
  | none =>
    { outcome := Except.error "Invalid repository URL provided.",
      cache := cache, trace := [] }
  | some _ =>
    match cacheGet cache repoUrl with
    | some cached =>
      if w.now - cached.timestamp < CACHE_DURATION then
        { outcome := Except.ok cached.files, cache := cache, trace := [] }
      else getRepoFilesClone repoUrl w cache
    | none => getRepoFilesClone repoUrl w cache

/-- Model of toggleFileSelection: the updater passed to setSelectedFiles. -/
def toggleFileSelection (prev : List String) (pth : String) : List String :=
  if prev.contains pth then prev.filter (fun p => p != pth)
  else prev ++ [pth]

/-- Model of combineFiles from the page component. -/
def combineFiles (files : List GitHubFile) (selectedFiles : List String)
    (includePath minified : Bool) : String :=
  let combined := selectedFiles.foldl (fun combined filePath =>
    match files.find? (fun f => f.path == filePath) with
    | some file =>
      let fileContent := if minified then jsTrim (jsCollapse file.content) else file.content
      if includePath then combined ++ ("[path:" ++ file.path ++ "]\n" ++ fileContent ++ "\n\n")
      else combined ++ (fileContent ++ "\n\n")
    | none => combined) ""
  jsTrim combined

/-- The text contributed by one selected path inside combineFiles. -/
def renderPart (files : List GitHubFile) (includePath minified : Bool)
    (filePath : String) : String :=
  match files.find? (fun f => f.path == filePath) with
  | some file =>
    let fileContent := if minified then jsTrim (jsCollapse file.content) else file.content
    if includePath then "[path:" ++ file.path ++ "]\n" ++ fileContent ++ "\n\n"
    else fileContent ++ "\n\n"
  | none => ""

/-- Concatenation of a list of strings, in order. -/
def concatStrings : List String → String
  | [] => ""
  | s :: rest => s ++ concatStrings rest

/-- Whitespace compression order on character lists: the first list arises
from the second by deleting whitespace characters and replacing whitespace
characters with other whitespace characters, keeping everything else. -/
inductive WsLe : List Char → List Char → Prop where
  | nil : WsLe [] []
  | keep {a b : List Char} (c : Char) : WsLe a b → WsLe (c :: a) (c :: b)
  | subst {a b : List Char} {c d : Char} (hc : isJsWhitespace c = true)
      (hd : isJsWhitespace d = true) : WsLe a b → WsLe (c :: a) (d :: b)
  | del {a b : List Char} {d : Char} (hd : isJsWhitespace d = true) :
      WsLe a b → WsLe a (d :: b)

/-! Helper lemmas. -/

/-- The trace of the clone-and-walk block always ends with a removal of the
scratch directory. -/
theorem getRepoFilesClone_trace_ends_rm (url : String) (w : World) (c : Cache) :
    ∃ pre, (getRepoFilesClone url w c).trace = pre ++ [FsEv.rmTemp w.rmOk] := by
  by_cases hm : w.mkdirOk
  · cases hc : w.cloneResult with
    | ok tree =>
      refine ⟨[FsEv.rmTemp w.rmOk, FsEv.mkdirTemp, FsEv.cloneOp, FsEv.walkOp], ?_⟩
      simp [getRepoFilesClone, hm, hc]
    | error msg =>
      refine ⟨[FsEv.rmTemp w.rmOk, FsEv.mkdirTemp, FsEv.cloneOp], ?_⟩
      simp [getRepoFilesClone, hm, hc]
  · refine ⟨[FsEv.rmTemp w.rmOk, FsEv.mkdirTemp], ?_⟩
    simp [getRepoFilesClone, hm]

/-- Outcome and cache of the clone-and-walk block are independent of whether
the swallowed fs.rm cleanup calls succeed. -/
theorem getRepoFilesClone_rm_independent (url : String) (w : World) (c : Cache)
    (b : Bool) :
    (getRepoFilesClone url { w with rmOk := b } c).outcome =
      (getRepoFilesClone url w c).outcome ∧
    (getRepoFilesClone url { w with rmOk := b } c).cache =
      (getRepoFilesClone url w c).cache := by
  by_cases hm : w.mkdirOk
  · cases hc : w.cloneResult with
    | ok tree => simp [getRepoFilesClone, hm, hc]
    | error msg => simp [getRepoFilesClone, hm, hc]
  · simp [getRepoFilesClone, hm]

/-! Claim theorems. -/

/-- C10: toggleFileSelection removes a present path and appends an absent
one, so the path is in the result iff it was absent from the input, and a
double toggle restores the original selection as a set. -/
theorem toggleFileSelection_spec (prev : List String) (pth : String) :
    (pth ∈ toggleFileSelection prev pth ↔ pth ∉ prev) ∧
    (∀ x, x ∈ toggleFileSelection (toggleFileSelection prev pth) pth ↔ x ∈ prev) := by
  by_cases h : pth ∈ prev
  · have hc : prev.contains pth = true := List.elem_iff.mpr h
    have h1 : toggleFileSelection prev pth = prev.filter (fun p => p != pth) := by
      unfold toggleFileSelection
      rw [hc]
      simp
    constructor
    · rw [h1]
      simp [List.mem_filter, h]
    · intro x
      have hc2 : (prev.filter (fun p => p != pth)).contains pth = false := by
        by_contra hx
        have hmem : pth ∈ prev.filter (fun p => p != pth) :=
          List.elem_iff.mp (Bool.of_not_eq_false hx)
        simp [List.mem_filter] at hmem
      have h2 : toggleFileSelection (prev.filter (fun p => p != pth)) pth =
          prev.filter (fun p => p != pth) ++ [pth] := by
        unfold toggleFileSelection
        rw [hc2]
        simp
      rw [h1, h2]
      simp only [List.mem_append, List.mem_filter, List.mem_singleton]
      constructor
      · rintro (⟨hx, _⟩ | rfl)
        · exact hx
        · exact h
      · intro hx
        by_cases hxp : x = pth
        · exact Or.inr hxp
        · exact Or.inl ⟨hx, by simpa using hxp⟩
  · have hc : prev.contains pth = false := by
      by_contra hx
      exact h (List.elem_iff.mp (Bool.of_not_eq_false hx))
    have h1 : toggleFileSelection prev pth = prev ++ [pth] := by
      unfold toggleFileSelection
      rw [hc]
      simp
    constructor
    · rw [h1]
      simp [h]
    · intro x
      have hc2 : (prev ++ [pth]).contains pth = true := by
        apply List.elem_iff.mpr
        simp
      have hfilter : prev.filter (fun p => p != pth) = prev := by
        apply List.filter_eq_self.mpr
        intro a ha
        simp only [bne_iff_ne, ne_eq, decide_eq_true_eq]
        intro hh
        exact h (hh ▸ ha)
      have h2 : toggleFileSelection (prev ++ [pth]) pth =
          (prev ++ [pth]).filter (fun p => p != pth) := by
        unfold toggleFileSelection
        rw [hc2]
        simp
      rw [h1, h2, List.filter_append, hfilter]
      simp

/-- C3: eligibility is refused when the lower-cased final extension is in
the ignored set, regardless of size; refused when the size exceeds
1,048,576 bytes, regardless of extension; granted otherwise; and the
case-insensitive match refuses image.PNG at any size. -/
theorem shouldProcessFile_spec :
    (∀ p sz, IGNORED_EXTENSIONS.contains (toLowerStr (extname p)) = true →
      shouldProcessFile p sz = false) ∧
    (∀ p sz, 1048576 < sz → shouldProcessFile p sz = false) ∧
    (∀ p sz, IGNORED_EXTENSIONS.contains (toLowerStr (extname p)) = false →
      sz ≤ 1048576 → shouldProcessFile p sz = true) ∧
    (∀ sz, shouldProcessFile "image.PNG" sz = false) := by
  refine ⟨?_, ?_, ?_, ?_⟩
  · intro p sz h
    simp only [shouldProcessFile]
    rw [h]
    simp
  · intro p sz h
    simp only [shouldProcessFile]
    cases hig : IGNORED_EXTENSIONS.contains (toLowerStr (extname p)) with
    | true => simp
    | false =>
      have hlt : sz > MAX_FILE_SIZE := by
        simp only [MAX_FILE_SIZE]
        omega
      simp [hlt]
  · intro p sz h1 h2
    simp only [shouldProcessFile]
    rw [h1]
    have hle : ¬ sz > MAX_FILE_SIZE := by
      simp only [MAX_FILE_SIZE]
      omega
    simp [hle]
  · intro sz
    have hig : IGNORED_EXTENSIONS.contains (toLowerStr (extname "image.PNG")) = true := by
      decide
    simp only [shouldProcessFile]
    rw [hig]
    simp

/-- C3 witness: concrete eligibility outcomes obtained from the theorem. -/
theorem shouldProcessFile_spec_witness :
    shouldProcessFile "a.jpg" 0 = false ∧ shouldProcessFile "a.txt" 2000000 = false ∧
    shouldProcessFile "a.txt" 10 = true ∧ shouldProcessFile "image.PNG" 99999999 = false :=
  ⟨shouldProcessFile_spec.1 "a.jpg" 0 (by decide),
   shouldProcessFile_spec.2.1 "a.txt" 2000000 (by decide),
   shouldProcessFile_spec.2.2.1 "a.txt" 10 (by decide) (by decide),
   shouldProcessFile_spec.2.2.2 99999999⟩

/-- C2: the resolver yields null on parse failure, wrong host, or fewer
than two non-empty path segments; yields the first two segments joined as
owner/name when the host matches and two segments exist; and a null
resolution makes getRepoFiles fail with the invalid-repository-URL error. -/
theorem extractRepoPath_spec :
    (extractRepoPath none = none) ∧
    (∀ u : URLParts, u.hostname ≠ "github.com" → extractRepoPath (some u) = none) ∧
    (∀ u : URLParts,
      ((splitPath u.pathname).filter (fun s => s != "")).length < 2 →
      extractRepoPath (some u) = none) ∧
    (∀ (u : URLParts) (p0 p1 : String) (rest : List String),
      u.hostname = "github.com" →
      (splitPath u.pathname).filter (fun s => s != "") = p0 :: p1 :: rest →
      extractRepoPath (some u) = some (p0 ++ "/" ++ p1)) ∧
    (∀ url (w : World) (c : Cache), extractRepoPath w.parseResult = none →
      (getRepoFiles url w c).outcome = Except.error "Invalid repository URL provided.") := by
  refine ⟨rfl, ?_, ?_, ?_, ?_⟩
  · intro u h
    have hb : (u.hostname != "github.com") = true := bne_iff_ne.mpr h
    simp only [extractRepoPath]
    rw [hb]
    simp
  · intro u h
    simp only [extractRepoPath]
    cases hb : (u.hostname != "github.com") with
    | true => simp
    | false => simp [h]
  · intro u p0 p1 rest hh hsplit
    have hb : (u.hostname != "github.com") = false := by
      simp [hh]
    simp only [extractRepoPath]
    rw [hb, hsplit]
    simp
  · intro url w c h
    simp only [getRepoFiles]
    rw [h]

/-- C2 witness: concrete resolutions obtained from the theorem. -/
theorem extractRepoPath_spec_witness :
    extractRepoPath (some ⟨"gitlab.com", "/a/b"⟩) = none ∧
    extractRepoPath (some ⟨"github.com", "/a"⟩) = none ∧
    extractRepoPath (some ⟨"github.com", "/a/b/c"⟩) = some "a/b" ∧
    (getRepoFiles "x" ⟨none, 0, true, "", true, Except.ok FSDir.nil⟩ []).outcome =
      Except.error "Invalid repository URL provided." :=
  ⟨extractRepoPath_spec.2.1 ⟨"gitlab.com", "/a/b"⟩ (by decide),
   extractRepoPath_spec.2.2.1 ⟨"github.com", "/a"⟩ (by decide),
   extractRepoPath_spec.2.2.2.1 ⟨"github.com", "/a/b/c"⟩ "a" "b" ["c"] rfl (by decide),
   extractRepoPath_spec.2.2.2.2 "x" ⟨none, 0, true, "", true, Except.ok FSDir.nil⟩ [] rfl⟩

/-- C6: whenever a call attempts to create the scratch directory, its event
trace ends with a removal of that directory, on the success path and on
both failure paths alike; and the outcome and the cache state are
independent of whether the swallowed removal calls succeed. -/
theorem scratchDir_cleanup (url : String) (w : World) (c : Cache) :
    ((getRepoFiles url w c).trace.contains FsEv.mkdirTemp = true →
      ∃ pre, (getRepoFiles url w c).trace = pre ++ [FsEv.rmTemp w.rmOk]) ∧
    (∀ b₁ b₂ : Bool,
      (getRepoFiles url { w with rmOk := b₁ } c).outcome =
        (getRepoFiles url { w with rmOk := b₂ } c).outcome ∧
      (getRepoFiles url { w with rmOk := b₁ } c).cache =
        (getRepoFiles url { w with rmOk := b₂ } c).cache) := by
  constructor
  · intro htrace
    cases hp : extractRepoPath w.parseResult with
    | none => simp [getRepoFiles, hp] at htrace
    | some rp =>
      simp only [getRepoFiles, hp] at htrace ⊢
      cases hcg : cacheGet c url with
      | some cached =>
        simp only [hcg] at htrace ⊢
        by_cases hfresh : w.now - cached.timestamp < CACHE_DURATION
        · rw [if_pos hfresh] at htrace
          simp at htrace
        · rw [if_neg hfresh]
          exact getRepoFilesClone_trace_ends_rm url w c
      | none =>
        simp only [hcg] at htrace ⊢
        exact getRepoFilesClone_trace_ends_rm url w c
  · intro b₁ b₂
    cases hp : extractRepoPath w.parseResult with
    | none => simp [getRepoFiles, hp]
    | some rp =>
      simp only [getRepoFiles, hp]
      cases hcg : cacheGet c url with
      | some cached =>
        simp only [hcg]
        by_cases hfresh : w.now - cached.timestamp < CACHE_DURATION
        · rw [if_pos hfresh, if_pos hfresh]
          exact ⟨rfl, rfl⟩
        · rw [if_neg hfresh, if_neg hfresh]
          have e₁ := getRepoFilesClone_rm_independent url w c b₁
          have e₂ := getRepoFilesClone_rm_independent url w c b₂
          exact ⟨e₁.1.trans e₂.1.symm, e₁.2.trans e₂.2.symm⟩
      | none =>
        simp only [hcg]
        have e₁ := getRepoFilesClone_rm_independent url w c b₁
        have e₂ := getRepoFilesClone_rm_independent url w c b₂
        exact ⟨e₁.1.trans e₂.1.symm, e₁.2.trans e₂.2.symm⟩

/-- C6 witness: a concrete call that clones, whose trace ends with the
scratch-directory removal. -/
theorem scratchDir_cleanup_witness :
    ∃ pre,
      (getRepoFiles "https://github.com/o/r"
        ⟨some ⟨"github.com", "/o/r"⟩, 0, true, "", true, Except.ok FSDir.nil⟩ []).trace =
      pre ++ [FsEv.rmTemp true] :=
  (scratchDir_cleanup "https://github.com/o/r"
    ⟨some ⟨"github.com", "/o/r"⟩, 0, true, "", true, Except.ok FSDir.nil⟩ []).1 (by decide)

/-- A cache-missing clone-success call returns the walk result, stores it
in the cache keyed by the URL at the call time, and runs the full
rm/mkdir/clone/walk/rm event sequence. -/
theorem getRepoFiles_clone_ok (url : String) (w : World) (c : Cache) (tree : FSDir)
    (hp : (extractRepoPath w.parseResult).isSome = true)
    (hmiss : ∀ e, cacheGet c url = some e → CACHE_DURATION ≤ w.now - e.timestamp)
    (hm : w.mkdirOk = true) (hclone : w.cloneResult = Except.ok tree) :
    getRepoFiles url w c =
      { outcome := Except.ok (listFiles tree ""),
        cache := (url, { timestamp := w.now, files := listFiles tree "" }) :: c,
        trace := [FsEv.rmTemp w.rmOk, FsEv.mkdirTemp, FsEv.cloneOp, FsEv.walkOp,
                  FsEv.rmTemp w.rmOk] } := by
  cases hpr : extractRepoPath w.parseResult with
  | none => rw [hpr] at hp; simp at hp
  | some rp =>
    cases hcg : cacheGet c url with
    | none => simp [getRepoFiles, hpr, hcg, getRepoFilesClone, hm, hclone]
    | some e =>
      have hstale := hmiss e hcg
      have hnf : ¬ (w.now - e.timestamp < CACHE_DURATION) := by omega
      simp [getRepoFiles, hpr, hcg, hnf, getRepoFilesClone, hm, hclone]

/-- A cache-missing call whose clone fails rethrows the single wrapped
clone error and leaves the cache unchanged. -/
theorem getRepoFiles_clone_error (url : String) (w : World) (c : Cache) (msg : String)
    (hp : (extractRepoPath w.parseResult).isSome = true)
    (hmiss : ∀ e, cacheGet c url = some e → CACHE_DURATION ≤ w.now - e.timestamp)
    (hm : w.mkdirOk = true) (hclone : w.cloneResult = Except.error msg) :
    getRepoFiles url w c =
      { outcome := Except.error ("Failed to clone repository: " ++ msg),
        cache := c,
        trace := [FsEv.rmTemp w.rmOk, FsEv.mkdirTemp, FsEv.cloneOp,
                  FsEv.rmTemp w.rmOk] } := by
  cases hpr : extractRepoPath w.parseResult with
  | none => rw [hpr] at hp; simp at hp
  | some rp =>
    cases hcg : cacheGet c url with
    | none => simp [getRepoFiles, hpr, hcg, getRepoFilesClone, hm, hclone]
    | some e =>
      have hstale := hmiss e hcg
      have hnf : ¬ (w.now - e.timestamp < CACHE_DURATION) := by omega
      simp [getRepoFiles, hpr, hcg, hnf, getRepoFilesClone, hm, hclone]

/-- A cache-missing call whose scratch-directory creation fails rethrows
the single wrapped error and leaves the cache unchanged. -/
theorem getRepoFiles_mkdir_error (url : String) (w : World) (c : Cache)
    (hp : (extractRepoPath w.parseResult).isSome = true)
    (hmiss : ∀ e, cacheGet c url = some e → CACHE_DURATION ≤ w.now - e.timestamp)
    (hm : w.mkdirOk = false) :
    getRepoFiles url w c =
      { outcome := Except.error ("Failed to clone repository: " ++ w.mkdirErrMsg),
        cache := c,
        trace := [FsEv.rmTemp w.rmOk, FsEv.mkdirTemp, FsEv.rmTemp w.rmOk] } := by
  cases hpr : extractRepoPath w.parseResult with
  | none => rw [hpr] at hp; simp at hp
  | some rp =>
    cases hcg : cacheGet c url with
    | none => simp [getRepoFiles, hpr, hcg, getRepoFilesClone, hm]
    | some e =>
      have hstale := hmiss e hcg
      have hnf : ¬ (w.now - e.timestamp < CACHE_DURATION) := by omega
      simp [getRepoFiles, hpr, hcg, hnf, getRepoFilesClone, hm]

/-- On a tree in which every filesystem call succeeds, the walk returns
exactly the complete filtered file list. -/
theorem listFiles_complete : ∀ (d : FSDir) (pfx : String), treeClean d = true →
    listFiles d pfx = allEligibleFiles d pfx := by
  intro d pfx
  induction d, pfx using listFiles.induct with
  | case1 pfx => intro _; rfl
  | case2 name listable sub rest pfx ih1 ih2 =>
    intro h
    simp only [treeClean, Bool.and_eq_true] at h
    obtain ⟨hl, hs, hr⟩ := h
    subst hl
    simp only [listFiles, allEligibleFiles, if_true, ih1 hs, ih2 hr]
  | case3 name size readable content rest pfx ih =>
    intro h
    simp only [treeClean, Bool.true_and] at h
    simp only [listFiles, allEligibleFiles, if_true, ih h]
  | case4 name size statOk readable content rest pfx hst =>
    intro h
    rw [Bool.not_eq_true] at hst
    subst hst
    simp [treeClean] at h

/-- C4: a cache-missing clone call stores its file list in the cache keyed
by the exact URL string at the call time; and any call for the same URL
finding an entry younger than five minutes returns exactly the cached
files, leaves the cache unchanged, and performs no clone and no disk walk
(its event trace is empty). -/
theorem cache_property :
    (∀ url (w : World) (c : Cache) (tree : FSDir),
      (extractRepoPath w.parseResult).isSome = true →
      (∀ e, cacheGet c url = some e → CACHE_DURATION ≤ w.now - e.timestamp) →
      w.mkdirOk = true → w.cloneResult = Except.ok tree →
      cacheGet (getRepoFiles url w c).cache url =
        some { timestamp := w.now, files := listFiles tree "" } ∧
      (getRepoFiles url w c).outcome = Except.ok (listFiles tree "")) ∧
    (∀ url (w' : World) (c' : Cache) (e : CacheEntry),
      (extractRepoPath w'.parseResult).isSome = true →
      cacheGet c' url = some e →
      w'.now - e.timestamp < CACHE_DURATION →
      (getRepoFiles url w' c').outcome = Except.ok e.files ∧
      (getRepoFiles url w' c').cache = c' ∧
      (getRepoFiles url w' c').trace = []) := by
  constructor
  · intro url w c tree hp hmiss hm hclone
    rw [getRepoFiles_clone_ok url w c tree hp hmiss hm hclone]
    constructor
    · simp [cacheGet]
    · rfl
  · intro url w' c' e hp hcg hfresh
    cases hpr : extractRepoPath w'.parseResult with
    | none => rw [hpr] at hp; simp at hp
    | some rp =>
      refine ⟨?_, ?_, ?_⟩ <;> simp [getRepoFiles, hpr, hcg, hfresh]

/-- C4 witness: a fresh cache entry is returned verbatim with an empty
event trace, at a concrete URL, entry and clock. -/
theorem cache_property_witness :
    (getRepoFiles "https://github.com/o/r"
      ⟨some ⟨"github.com", "/o/r"⟩, 200007, true, "", true, Except.ok FSDir.nil⟩
      [("https://github.com/o/r",
        { timestamp := 200000, files := [⟨"a.txt", "file", "A", "", 3⟩] })]).outcome =
      Except.ok [⟨"a.txt", "file", "A", "", 3⟩] ∧
    (getRepoFiles "https://github.com/o/r"
      ⟨some ⟨"github.com", "/o/r"⟩, 200007, true, "", true, Except.ok FSDir.nil⟩
      [("https://github.com/o/r",
        { timestamp := 200000, files := [⟨"a.txt", "file", "A", "", 3⟩] })]).cache =
      [("https://github.com/o/r",
        { timestamp := 200000, files := [⟨"a.txt", "file", "A", "", 3⟩] })] ∧
    (getRepoFiles "https://github.com/o/r"
      ⟨some ⟨"github.com", "/o/r"⟩, 200007, true, "", true, Except.ok FSDir.nil⟩
      [("https://github.com/o/r",
        { timestamp := 200000, files := [⟨"a.txt", "file", "A", "", 3⟩] })]).trace = [] :=
  cache_property.2 "https://github.com/o/r"
    ⟨some ⟨"github.com", "/o/r"⟩, 200007, true, "", true, Except.ok FSDir.nil⟩
    [("https://github.com/o/r",
      { timestamp := 200000, files := [⟨"a.txt", "file", "A", "", 3⟩] })]
    { timestamp := 200000, files := [⟨"a.txt", "file", "A", "", 3⟩] }
    (by decide) (by decide) (by decide)

/-- C8: an eligible regular file whose content read fails is still recorded
in the walk result with empty content, the walk continues past it, and a
call whose clone succeeded returns a successful file list whatever the
readability of the files in the tree. -/
theorem decodeFailure_empty_content :
    (∀ pfx name size content rest,
      shouldProcessFile (relPath pfx name) size = true →
      listFiles (FSDir.cons (FSEntry.file name size true false content) rest) pfx =
        { path := relPath pfx name, type := "file", content := "", sha := "",
          size := size } :: listFiles rest pfx) ∧
    (∀ url (w : World) (c : Cache) (tree : FSDir),
      (extractRepoPath w.parseResult).isSome = true →
      (∀ e, cacheGet c url = some e → CACHE_DURATION ≤ w.now - e.timestamp) →
      w.mkdirOk = true → w.cloneResult = Except.ok tree →
      (getRepoFiles url w c).outcome = Except.ok (listFiles tree "")) := by
  constructor
  · intro pfx name size content rest h
    simp [listFiles, h]
  · intro url w c tree hp hmiss hm hclone
    rw [getRepoFiles_clone_ok url w c tree hp hmiss hm hclone]

/-- C8 witness: a concrete unreadable eligible file is recorded with empty
content and the surrounding call still succeeds. -/
theorem decodeFailure_empty_content_witness :
    listFiles (FSDir.cons (FSEntry.file "x.txt" 7 true false "secret") FSDir.nil) "" =
      [⟨"x.txt", "file", "", "", 7⟩] ∧
    (getRepoFiles "https://github.com/o/r"
      ⟨some ⟨"github.com", "/o/r"⟩, 0, true, "", true,
        Except.ok (FSDir.cons (FSEntry.file "x.txt" 7 true false "secret") FSDir.nil)⟩
      []).outcome = Except.ok [⟨"x.txt", "file", "", "", 7⟩] :=
  ⟨decodeFailure_empty_content.1 "" "x.txt" 7 "secret" FSDir.nil (by decide),
   decodeFailure_empty_content.2 "https://github.com/o/r"
     ⟨some ⟨"github.com", "/o/r"⟩, 0, true, "", true,
       Except.ok (FSDir.cons (FSEntry.file "x.txt" 7 true false "secret") FSDir.nil)⟩
     [] (FSDir.cons (FSEntry.file "x.txt" 7 true false "secret") FSDir.nil)
     (by decide) (by intro e he; simp [cacheGet] at he) rfl rfl⟩

/-- C1 counterexample: a call in which the readdir of one subdirectory
fails still succeeds, returning a partial file list in which the eligible
file under the failed directory is silently missing, so a filesystem
failure during ingestion can yield a partial list instead of an
IngestionError. -/
theorem partialList_counterexample :
    (getRepoFiles "https://github.com/o/r"
      ⟨some ⟨"github.com", "/o/r"⟩, 0, true, "", true,
        Except.ok (FSDir.ofList
          [FSEntry.file "a.txt" 3 true true "A",
           FSEntry.dir "sub" false
             (FSDir.ofList [FSEntry.file "b.txt" 3 true true "B"])])⟩
      []).outcome = Except.ok [⟨"a.txt", "file", "A", "", 3⟩] ∧
    allEligibleFiles (FSDir.ofList
        [FSEntry.file "a.txt" 3 true true "A",
         FSEntry.dir "sub" false
           (FSDir.ofList [FSEntry.file "b.txt" 3 true true "B"])]) "" =
      [⟨"a.txt", "file", "A", "", 3⟩, ⟨"sub/b.txt", "file", "B", "", 3⟩] ∧
    ([⟨"a.txt", "file", "A", "", 3⟩] : List GitHubFile) ≠
      [⟨"a.txt", "file", "A", "", 3⟩, ⟨"sub/b.txt", "file", "B", "", 3⟩] :=
  ⟨rfl, rfl, by decide⟩

/-- C1 amended: the caller observes exactly one outcome — a thrown wrapped
error when URL resolution, scratch-directory creation or the clone fails,
or a returned file list when the clone succeeds — and that list is the
complete filtered list whenever every filesystem call of the walk
succeeds; a readdir or stat failure during the walk is swallowed and only
truncates the list. -/
theorem ingestion_outcome_spec :
    (∀ url (w : World) (c : Cache),
      (extractRepoPath w.parseResult).isSome = true →
      (∀ e, cacheGet c url = some e → CACHE_DURATION ≤ w.now - e.timestamp) →
      (w.mkdirOk = false →
        (getRepoFiles url w c).outcome =
          Except.error ("Failed to clone repository: " ++ w.mkdirErrMsg)) ∧
      (∀ msg, w.mkdirOk = true → w.cloneResult = Except.error msg →
        (getRepoFiles url w c).outcome =
          Except.error ("Failed to clone repository: " ++ msg)) ∧
      (∀ tree, w.mkdirOk = true → w.cloneResult = Except.ok tree →
        (getRepoFiles url w c).outcome = Except.ok (listFiles tree ""))) ∧
    (∀ (tree : FSDir) (pfx : String), treeClean tree = true →
      listFiles tree pfx = allEligibleFiles tree pfx) := by
  constructor
  · intro url w c hp hmiss
    refine ⟨?_, ?_, ?_⟩
    · intro hm
      rw [getRepoFiles_mkdir_error url w c hp hmiss hm]
    · intro msg hm hclone
      rw [getRepoFiles_clone_error url w c msg hp hmiss hm hclone]
    · intro tree hm hclone
      rw [getRepoFiles_clone_ok url w c tree hp hmiss hm hclone]
  · exact listFiles_complete

/-- C1 witness: a concrete failing clone yields the single wrapped error,
and a concrete clean tree walk yields the complete filtered list. -/
theorem ingestion_outcome_spec_witness :
    (getRepoFiles "https://github.com/o/r"
      ⟨some ⟨"github.com", "/o/r"⟩, 0, true, "", true,
        Except.error "remote: Repository not found."⟩ []).outcome =
      Except.error "Failed to clone repository: remote: Repository not found." ∧
    listFiles (FSDir.cons (FSEntry.file "a.txt" 3 true true "A") FSDir.nil) "" =
      allEligibleFiles (FSDir.cons (FSEntry.file "a.txt" 3 true true "A") FSDir.nil) "" :=
  ⟨((ingestion_outcome_spec.1 "https://github.com/o/r"
      ⟨some ⟨"github.com", "/o/r"⟩, 0, true, "", true,
        Except.error "remote: Repository not found."⟩ []
      (by decide) (by intro e he; simp [cacheGet] at he)).2.1
      "remote: Repository not found." rfl rfl),
   ingestion_outcome_spec.2
     (FSDir.cons (FSEntry.file "a.txt" 3 true true "A") FSDir.nil) "" (by decide)⟩

/-- The foldl of combineFiles appends the rendered parts, in selection
order, to its accumulator. -/
theorem combineFiles_foldl_eq (files : List GitHubFile) (inc mn : Bool) :
    ∀ (sel : List String) (acc : String),
      sel.foldl (fun combined filePath =>
        match files.find? (fun f => f.path == filePath) with
        | some file =>
          let fileContent := if mn then jsTrim (jsCollapse file.content) else file.content
          if inc then combined ++ ("[path:" ++ file.path ++ "]\n" ++ fileContent ++ "\n\n")
          else combined ++ (fileContent ++ "\n\n")
        | none => combined) acc =
      acc ++ concatStrings (sel.map (renderPart files inc mn)) := by
  intro sel
  induction sel with
  | nil =>
    intro acc
    simp [concatStrings, String.append_empty]
  | cons p rest ih =>
    intro acc
    have hstep :
        (match files.find? (fun f => f.path == p) with
          | some file =>
            let fileContent := if mn then jsTrim (jsCollapse file.content) else file.content
            if inc then acc ++ ("[path:" ++ file.path ++ "]\n" ++ fileContent ++ "\n\n")
            else acc ++ (fileContent ++ "\n\n")
          | none => acc) = acc ++ renderPart files inc mn p := by
      cases hf : files.find? (fun f => f.path == p) with
      | none => simp [renderPart, hf, String.append_empty]
      | some file => cases inc <;> simp [renderPart, hf]
    rw [List.foldl_cons, ih, List.map_cons]
    simp only [concatStrings]
    rw [hstep, String.append_assoc]

/-- combineFiles is the trimmed concatenation of the rendered parts in
selection order. -/
theorem combineFiles_eq_concat (files : List GitHubFile) (sel : List String)
    (inc mn : Bool) :
    combineFiles files sel inc mn =
      jsTrim (concatStrings (sel.map (renderPart files inc mn))) := by
  simp only [combineFiles]
  rw [combineFiles_foldl_eq]
  rfl

/-- C5: on the two-file example the assembly yields exactly the expected
annotated document, and in general combineFiles renders the selected paths
in the caller-given selection order — optional minify, optional path
marker line, blank-line separator — and trims the final result. -/
theorem combineFiles_spec :
    combineFiles
        [⟨"a.txt", "file", "foo\n\nbar", "", 8⟩, ⟨"b.txt", "file", "baz", "", 3⟩]
        ["a.txt", "b.txt"] true false =
      "[path:a.txt]\nfoo\n\nbar\n\n[path:b.txt]\nbaz" ∧
    ∀ (files : List GitHubFile) (sel : List String) (inc mn : Bool),
      combineFiles files sel inc mn =
        jsTrim (concatStrings (sel.map (renderPart files inc mn))) :=
  ⟨by decide, combineFiles_eq_concat⟩

/-- String append acts as list append on the underlying character data. -/
theorem string_data_append (a b : String) : (a ++ b).data = a.data ++ b.data := rfl

/-- splitPathAux on a slash-free tail yields one segment made of the
reversed accumulator followed by the tail. -/
theorem splitPathAux_no_slash : ∀ (n acc : List Char), '/' ∉ n →
    splitPathAux n acc = [String.mk (acc.reverse ++ n)] := by
  intro n
  induction n with
  | nil =>
    intro acc _
    simp [splitPathAux]
  | cons c rest ih =>
    intro acc h
    have hc : ¬ c = '/' := fun hh => h (hh ▸ List.mem_cons_self c rest)
    have hrest : '/' ∉ rest := fun hh => h (List.mem_cons_of_mem c hh)
    simp only [splitPathAux, if_neg hc]
    rw [ih (c :: acc) hrest]
    simp

/-- Splitting a path extended by a slash and a slash-free name appends one
segment. -/
theorem splitPathAux_append_slash : ∀ (p acc n : List Char), '/' ∉ n →
    splitPathAux (p ++ '/' :: n) acc = splitPathAux p acc ++ [String.mk n] := by
  intro p
  induction p with
  | nil =>
    intro acc n h
    rw [List.nil_append]
    simp only [splitPathAux, if_pos rfl]
    rw [splitPathAux_no_slash n [] h]
    simp [splitPathAux]
  | cons c rest ih =>
    intro acc n h
    rw [List.cons_append]
    by_cases hc : c = '/'
    · subst hc
      simp only [splitPathAux, if_true]
      rw [ih [] n h, List.cons_append]
    · simp only [splitPathAux, if_neg hc]
      rw [ih (c :: acc) n h]

/-- The segments of the relative path built by the walk: the segments of
the prefix followed by the slash-free entry name. -/
theorem splitPath_relPath (pfx name : String) (h : '/' ∉ name.data) :
    splitPath (relPath pfx name) =
      (if pfx = "" then [name] else splitPath pfx ++ [name]) := by
  by_cases hp : pfx = ""
  · rw [if_pos hp]
    subst hp
    simp only [relPath, if_true, splitPath]
    rw [splitPathAux_no_slash name.data [] h]
    simp
  · rw [if_neg hp]
    simp only [relPath, if_neg hp, splitPath]
    have hdata : (pfx ++ "/" ++ name).data = pfx.data ++ '/' :: name.data := by
      rw [string_data_append, string_data_append, List.append_assoc]
      rfl
    rw [hdata, splitPathAux_append_slash pfx.data [] name.data h]

/-- A failing Bool contains check gives propositional non-membership. -/
theorem not_mem_of_contains_false {α : Type} [BEq α] [LawfulBEq α] {l : List α} {a : α}
    (h : l.contains a = false) : a ∉ l := by
  intro hmem
  have hc : l.contains a = true := List.elem_iff.mpr hmem
  rw [hc] at h
  exact Bool.true_eq_false.mp h

/-- C7: the walk never descends into a directory named .git — pruning all
such directories from the tree leaves the walk result unchanged — and, on
any tree whose entry names are slash-free with no regular file named .git
(as in every tree git produces), no returned file has .git as a path
segment. -/
theorem gitDir_skipped :
    (∀ (d : FSDir) (pfx : String), listFiles d pfx = listFiles (pruneGit d) pfx) ∧
    (∀ (d : FSDir) (pfx : String) (f : GitHubFile),
      namesOk d = true → noGitFile d = true → ".git" ∉ splitPath pfx →
      f ∈ listFiles d pfx → ".git" ∉ splitPath f.path) := by
  constructor
  · intro d pfx
    induction d, pfx using listFiles.induct with
    | case1 pfx => rfl
    | case2 name listable sub rest pfx ih1 ih2 =>
      by_cases hg : name = ".git"
      · subst hg
        simp [listFiles, pruneGit, ih2]
      · cases listable with
        | true => simp [listFiles, pruneGit, hg, ih1, ih2]
        | false => simp [listFiles, pruneGit, hg, ih2]
    | case3 name size readable content rest pfx ih =>
      simp [listFiles, pruneGit, ih]
    | case4 name size statOk readable content rest pfx hst =>
      rw [Bool.not_eq_true] at hst
      subst hst
      simp [listFiles, pruneGit]
  · intro d pfx
    induction d, pfx using listFiles.induct with
    | case1 pfx =>
      intro f _ _ _ hmem
      simp [listFiles] at hmem
    | case2 name listable sub rest pfx ih1 ih2 =>
      intro f hn hg hp hmem
      simp only [namesOk, Bool.and_eq_true] at hn
      obtain ⟨hslash, hnsub, hnrest⟩ := hn
      simp only [noGitFile, Bool.and_eq_true] at hg
      obtain ⟨hgsub, hgrest⟩ := hg
      have hslash' : '/' ∉ name.data :=
        not_mem_of_contains_false (by simpa using hslash)
      simp only [listFiles, List.mem_append] at hmem
      cases hmem with
      | inr hmem => exact ih2 f hnrest hgrest hp hmem
      | inl hmem =>
        by_cases hgit : name = ".git"
        · simp [hgit] at hmem
        · cases listable with
          | false => simp [hgit] at hmem
          | true =>
            rw [if_neg hgit, if_pos rfl] at hmem
            refine ih1 f hnsub hgsub ?_ hmem
            rw [splitPath_relPath pfx name hslash']
            by_cases hpfx : pfx = ""
            · rw [if_pos hpfx]
              intro hh
              rw [List.mem_singleton] at hh
              exact hgit hh.symm
            · rw [if_neg hpfx]
              intro hh
              rw [List.mem_append, List.mem_singleton] at hh
              cases hh with
              | inl hh => exact hp hh
              | inr hh => exact hgit hh.symm
    | case3 name size readable content rest pfx ih =>
      intro f hn hg hp hmem
      simp only [namesOk, Bool.and_eq_true] at hn
      obtain ⟨hslash, hnrest⟩ := hn
      simp only [noGitFile, Bool.and_eq_true] at hg
      obtain ⟨hne, hgrest⟩ := hg
      have hslash' : '/' ∉ name.data :=
        not_mem_of_contains_false (by simpa using hslash)
      have hgit : ¬ name = ".git" := by simpa using hne
      rw [listFiles, if_pos rfl] at hmem
      rw [List.mem_append] at hmem
      cases hmem with
      | inr hmem => exact ih f hnrest hgrest hp hmem
      | inl hmem =>
        have hf : f.path = relPath pfx name := by
          by_cases hsp : shouldProcessFile (relPath pfx name) size = true
          · rw [if_pos hsp, List.mem_singleton] at hmem
            rw [hmem]
          · rw [Bool.not_eq_true] at hsp
            simp [hsp] at hmem
        rw [hf, splitPath_relPath pfx name hslash']
        by_cases hpfx : pfx = ""
        · rw [if_pos hpfx]
          intro hh
          rw [List.mem_singleton] at hh
          exact hgit hh.symm
        · rw [if_neg hpfx]
          intro hh
          rw [List.mem_append, List.mem_singleton] at hh
          cases hh with
          | inl hh => exact hp hh
          | inr hh => exact hgit hh.symm
    | case4 name size statOk readable content rest pfx hst =>
      intro f _ _ _ hmem
      rw [Bool.not_eq_true] at hst
      subst hst
      simp [listFiles] at hmem

/-- C7 witness: on a concrete tree with a populated .git directory next to
a source file, the walk equals the pruned walk and the returned file's
path has no .git segment. -/
theorem gitDir_skipped_witness :
    listFiles (FSDir.ofList
        [FSEntry.dir ".git" true (FSDir.ofList [FSEntry.file "config" 3 true true "x"]),
         FSEntry.file "a.txt" 3 true true "A"]) "" =
      listFiles (pruneGit (FSDir.ofList
        [FSEntry.dir ".git" true (FSDir.ofList [FSEntry.file "config" 3 true true "x"]),
         FSEntry.file "a.txt" 3 true true "A"])) "" ∧
    ".git" ∉ splitPath "a.txt" :=
  ⟨gitDir_skipped.1 (FSDir.ofList
      [FSEntry.dir ".git" true (FSDir.ofList [FSEntry.file "config" 3 true true "x"]),
       FSEntry.file "a.txt" 3 true true "A"]) "",
   gitDir_skipped.2 (FSDir.ofList
      [FSEntry.dir ".git" true (FSDir.ofList [FSEntry.file "config" 3 true true "x"]),
       FSEntry.file "a.txt" 3 true true "A"]) "" ⟨"a.txt", "file", "A", "", 3⟩
      (by decide) (by decide) (by decide) (by decide)⟩

/-- WsLe is reflexive. -/
theorem wsLe_refl : ∀ l : List Char, WsLe l l
  | [] => WsLe.nil
  | c :: rest => WsLe.keep c (wsLe_refl rest)

/-- WsLe is compatible with concatenation. -/
theorem wsLe_append {a b a' b' : List Char} (h1 : WsLe a b) (h2 : WsLe a' b') :
    WsLe (a ++ a') (b ++ b') := by
  induction h1 with
  | nil => exact h2
  | keep c _ ih => exact WsLe.keep c ih
  | subst hc hd _ ih => exact WsLe.subst hc hd ih
  | del hd _ ih => exact WsLe.del hd ih

/-- WsLe is transitive. -/
theorem wsLe_trans {a b c : List Char} (h1 : WsLe a b) (h2 : WsLe b c) : WsLe a c := by
  induction h2 generalizing a with
  | nil => exact h1
  | keep x _ ih =>
    cases h1 with
    | keep _ h => exact WsLe.keep x (ih h)
    | subst hc hd h => exact WsLe.subst hc hd (ih h)
    | del hd h => exact WsLe.del hd (ih h)
  | subst hy hz _ ih =>
    cases h1 with
    | keep _ h => exact WsLe.subst hy hz (ih h)
    | subst hc _ h => exact WsLe.subst hc hz (ih h)
    | del _ h => exact WsLe.del hz (ih h)
  | del hz _ ih => exact WsLe.del hz (ih h1)

/-- Dropping leading whitespace compresses a list in the WsLe order. -/
theorem wsLe_dropWhile_self : ∀ l : List Char, WsLe (l.dropWhile isJsWhitespace) l := by
  intro l
  induction l with
  | nil => exact WsLe.nil
  | cons c rest ih =>
    rw [List.dropWhile_cons]
    by_cases hc : isJsWhitespace c = true
    · rw [if_pos hc]
      exact WsLe.del hc ih
    · rw [if_neg hc]
      exact WsLe.keep c (wsLe_refl rest)

/-- Compression against a list with its leading whitespace dropped extends
to the full list. -/
theorem wsLe_of_dropWhile : ∀ (l x : List Char),
    WsLe x (l.dropWhile isJsWhitespace) → WsLe x l := by
  intro l
  induction l with
  | nil =>
    intro x h
    simpa [List.dropWhile] using h
  | cons d rest ih =>
    intro x h
    rw [List.dropWhile_cons] at h
    by_cases hd : isJsWhitespace d = true
    · rw [if_pos hd] at h
      exact WsLe.del hd (ih x h)
    · rwa [if_neg hd] at h

/-- A list with empty trimEnd is all whitespace: the empty list compresses
to it. -/
theorem wsLe_nil_of_trimEnd : ∀ l : List Char, trimEnd l = [] → WsLe [] l := by
  intro l
  induction l with
  | nil => intro _; exact WsLe.nil
  | cons c rest ih =>
    intro h
    rw [trimEnd] at h
    cases he : trimEnd rest with
    | nil =>
      rw [he] at h
      by_cases hc : isJsWhitespace c = true
      · exact WsLe.del hc (ih he)
      · rw [if_neg hc] at h
        exact absurd h (by simp)
    | cons x xs =>
      rw [he] at h
      exact absurd h (by simp)

/-- Removing trailing whitespace compresses a list in the WsLe order. -/
theorem wsLe_trimEnd_self : ∀ l : List Char, WsLe (trimEnd l) l := by
  intro l
  induction l with
  | nil => exact WsLe.nil
  | cons c rest ih =>
    rw [trimEnd]
    cases he : trimEnd rest with
    | nil =>
      by_cases hc : isJsWhitespace c = true
      · rw [if_pos hc]
        exact WsLe.del hc (wsLe_nil_of_trimEnd rest he)
      · rw [if_neg hc]
        exact WsLe.keep c (wsLe_nil_of_trimEnd rest he)
    | cons x xs =>
      exact WsLe.keep c (he ▸ ih)

/-- Both whitespace-collapsing passes compress a list in the WsLe order. -/
theorem wsLe_collapse_both : ∀ l : List Char,
    WsLe (collapseWS l) l ∧ WsLe (collapseAfterWS l) l := by
  intro l
  induction l with
  | nil => exact ⟨WsLe.nil, WsLe.nil⟩
  | cons c rest ih =>
    constructor
    · by_cases hc : isJsWhitespace c = true
      · rw [show collapseWS (c :: rest) = ' ' :: collapseAfterWS rest by
          simp [collapseWS, hc]]
        exact WsLe.subst (by decide) hc ih.2
      · rw [show collapseWS (c :: rest) = c :: collapseWS rest by
          simp [collapseWS, hc]]
        exact WsLe.keep c ih.1
    · by_cases hc : isJsWhitespace c = true
      · rw [show collapseAfterWS (c :: rest) = collapseAfterWS rest by
          simp [collapseAfterWS, hc]]
        exact WsLe.del hc ih.2
      · rw [show collapseAfterWS (c :: rest) = c :: collapseWS rest by
          simp [collapseAfterWS, hc]]
        exact WsLe.keep c ih.1

/-- The whitespace-collapsing pass compresses a list in the WsLe order. -/
theorem wsLe_collapse (l : List Char) : WsLe (collapseWS l) l :=
  (wsLe_collapse_both l).1

/-- The full trim compresses a list in the WsLe order. -/
theorem wsLe_jsTrimList (l : List Char) : WsLe (jsTrimList l) l :=
  wsLe_trans (wsLe_trimEnd_self (l.dropWhile isJsWhitespace)) (wsLe_dropWhile_self l)

/-- Minification compresses the content in the WsLe order. -/
theorem minify_wsLe (s : String) : WsLe (jsTrim (jsCollapse s)).data s.data :=
  wsLe_trans (wsLe_jsTrimList (collapseWS s.data)) (wsLe_collapse s.data)

/-- Prepending a character never shortens the trailing-trimmed list. -/
theorem trimEnd_length_cons (d : Char) (b : List Char) :
    (trimEnd b).length ≤ (trimEnd (d :: b)).length := by
  rw [trimEnd]
  cases he : trimEnd b with
  | nil => split <;> simp
  | cons x xs => simp

/-- Comparison of trailing-trimmed lengths extends across a cons whose new
heads are equal or both whitespace. -/
theorem trimEnd_cons_le {a b : List Char} {c d : Char}
    (hcd : (isJsWhitespace c = true ∧ isJsWhitespace d = true) ∨ c = d)
    (h : (trimEnd a).length ≤ (trimEnd b).length) :
    (trimEnd (c :: a)).length ≤ (trimEnd (d :: b)).length := by
  rw [trimEnd, trimEnd]
  cases hb : trimEnd b with
  | nil =>
    rw [hb] at h
    have ha : trimEnd a = [] := List.eq_nil_of_length_eq_zero (Nat.le_zero.mp h)
    rw [ha]
    rcases hcd with ⟨hc, hd⟩ | rfl
    · rw [if_pos hc, if_pos hd]
    · exact Nat.le_refl _
  | cons x xs =>
    rw [hb] at h
    cases ha : trimEnd a with
    | nil =>
      by_cases hc : isJsWhitespace c = true
      · rw [if_pos hc]
        simp
      · rw [if_neg hc]
        simp
    | cons y ys =>
      rw [ha] at h
      simp only [List.length_cons] at h ⊢
      omega

/-- WsLe compression never lengthens the trailing-trimmed list. -/
theorem wsLe_trimEnd_length {a b : List Char} (h : WsLe a b) :
    (trimEnd a).length ≤ (trimEnd b).length := by
  induction h with
  | nil => exact Nat.le_refl _
  | keep c _ ih => exact trimEnd_cons_le (Or.inr rfl) ih
  | subst hc hd _ ih => exact trimEnd_cons_le (Or.inl ⟨hc, hd⟩) ih
  | del hd _ ih => exact ih.trans (trimEnd_length_cons _ _)

/-- WsLe compression never lengthens the trimmed list. -/
theorem wsLe_trim_length {a b : List Char} (h : WsLe a b) :
    (jsTrimList a).length ≤ (jsTrimList b).length := by
  induction h with
  | nil => exact Nat.le_refl _
  | keep c hsub ih =>
    by_cases hc : isJsWhitespace c = true
    · unfold jsTrimList
      rw [List.dropWhile_cons, List.dropWhile_cons, if_pos hc, if_pos hc]
      exact ih
    · unfold jsTrimList
      rw [List.dropWhile_cons, List.dropWhile_cons, if_neg hc, if_neg hc]
      exact trimEnd_cons_le (Or.inr rfl) (wsLe_trimEnd_length hsub)
  | subst hc hd hsub ih =>
    unfold jsTrimList
    rw [List.dropWhile_cons, List.dropWhile_cons, if_pos hc, if_pos hd]
    exact ih
  | del hd hsub ih =>
    unfold jsTrimList at ih ⊢
    rw [List.dropWhile_cons, if_pos hd]
    exact ih

/-- Each rendered part with minify on compresses, characterwise, the same
part with minify off. -/
theorem renderPart_wsLe (files : List GitHubFile) (inc : Bool) (p : String) :
    WsLe (renderPart files inc true p).data (renderPart files inc false p).data := by
  cases hf : files.find? (fun f => f.path == p) with
  | none =>
    simp only [renderPart, hf]
    exact WsLe.nil
  | some file =>
    cases inc with
    | true =>
      simp only [renderPart, hf, if_true, Bool.false_eq_true, if_false]
      simp only [string_data_append]
      exact wsLe_append (wsLe_append (wsLe_refl _) (minify_wsLe file.content))
        (wsLe_refl _)
    | false =>
      simp only [renderPart, hf, if_true, Bool.false_eq_true, if_false]
      simp only [string_data_append]
      exact wsLe_append (minify_wsLe file.content) (wsLe_refl _)

/-- The concatenation of rendered parts with minify on compresses the one
with minify off. -/
theorem concatRendered_wsLe (files : List GitHubFile) (inc : Bool) :
    ∀ sel : List String,
      WsLe (concatStrings (sel.map (renderPart files inc true))).data
           (concatStrings (sel.map (renderPart files inc false))).data := by
  intro sel
  induction sel with
  | nil => exact WsLe.nil
  | cons p rest ih =>
    simp only [List.map_cons, concatStrings, string_data_append]
    exact wsLe_append (renderPart_wsLe files inc p) ih

/-- C9: minify collapses the example content to its single-space form, and
for every file set and every selection the assembled output with minify on
is never longer than the assembled output with minify off. -/
theorem minify_length_le :
    jsTrim (jsCollapse "foo\n\nbar") = "foo bar" ∧
    ∀ (files : List GitHubFile) (sel : List String) (inc : Bool),
      (combineFiles files sel inc true).length ≤
        (combineFiles files sel inc false).length := by
  constructor
  · decide
  · intro files sel inc
    rw [combineFiles_eq_concat, combineFiles_eq_concat]
    exact wsLe_trim_length (concatRendered_wsLe files inc sel)
